import Mathlib

/-
  Verification development for the PsyNeuLink compiled autodiff engine
  (psyneulink/library/compositions/pytorchmodelcreator.py).

  The definitions below are a shallow embedding of the code generator and of
  the kernels it emits.  Machine doubles are idealised as integers for the
  structural and algebraic claims (which only use ring operations, so the
  identities proved hold over any commutative ring) and as reals for the
  calculus claims;
  the LLVM builtin array primitives, whose bodies live outside the excerpted
  sources, are modelled from the specification of the primitive kernel
  library.
-/

/- ===== Vectors, matrices and the builtin array primitives ===== -/

abbrev Vec := List ℤ

abbrev Mat := List Vec

/-- Number of columns of a matrix (the length of its first row), mirroring
the second component of a numpy 2-d shape. -/
def matCols (M : Mat) : Nat := (M.getD 0 []).length

/-- Modelled from the spec: the builtin `__pnl_builtin_vec_copy(u, dim, out)`
is absent from the excerpted sources; per the primitive kernel library
contract it copies `dim` elements of `u` into the output buffer. -/
def vec_copy (dim : Nat) (u : Vec) : Vec :=
  (List.range dim).map (fun i => u.getD i 0)

/-- Modelled from the spec: the builtin `__pnl_builtin_vec_add(u, v, dim, out)`
is absent from the excerpted sources; per the primitive kernel library
contract it writes the elementwise sum of `u` and `v`. -/
def vec_add (dim : Nat) (u v : Vec) : Vec :=
  (List.range dim).map (fun i => u.getD i 0 + v.getD i 0)

/-- Modelled from the spec: the builtin `__pnl_builtin_vec_hadamard(u, v, dim, out)`
is absent from the excerpted sources; per the primitive kernel library
contract it writes the elementwise product of `u` and `v`. -/
def vec_hadamard (dim : Nat) (u v : Vec) : Vec :=
  (List.range dim).map (fun i => u.getD i 0 * v.getD i 0)

/-- Modelled from the spec: the builtin `__pnl_builtin_vxm(u, M, y, z, out)`
is absent from the excerpted sources; per the primitive kernel library
contract it computes the row-vector-times-matrix product with `y` rows and
`z` columns. -/
def vxm (y z : Nat) (u : Vec) (M : Mat) : Vec :=
  (List.range z).map (fun j =>
    ((List.range y).map (fun i => u.getD i 0 * (M.getD i []).getD j 0)).sum)

/-- Modelled from the spec: the builtin `__pnl_builtin_vxm_transposed(u, M, y, z, out)`
is absent from the excerpted sources; per the primitive kernel library
contract it computes the row-vector times transposed-matrix product, with
`y` rows and `z` columns of the untransposed matrix. -/
def vxm_transposed (y z : Nat) (u : Vec) (M : Mat) : Vec :=
  (List.range y).map (fun i =>
    ((List.range z).map (fun j => u.getD j 0 * (M.getD i []).getD j 0)).sum)

/-- Concatenation of a list of lists (used to state loop-emission normal
forms). -/
def flatList {α : Type} : List (List α) → List α
  | [] => []
  | l :: ls => l ++ flatList ls

/- ===== C1: the emitted training loop (lines 692-723) ===== -/

/-- One observable event emitted inside the compiled training function body:
a call to `optimizer.zero_grad`, to the backprop kernel for one input index,
or to `optimizer_step`. -/
inductive TrainEvent
  | zeroGrad
  | backprop (inputIdx : Nat)
  | optStep
deriving DecidableEq, Repr

/-- The event block the source emits for a single (input, target) pair:
`optimizer.zero_grad`, then the backprop call for that input index, then
`optimizer_step` (lines 716-723). -/
def sample_block (inputIdx : Nat) : List TrainEvent :=
  [TrainEvent.zeroGrad, TrainEvent.backprop inputIdx, TrainEvent.optStep]

/-- The sequence of optimizer/backprop calls emitted by
`_gen_llvm_training_function_body`: an epoch loop, inside it an input loop,
and inside the input loop a zero-grad call, one backprop call and one
optimizer-step call (lines 713-723). -/
def training_loop_trace (epochs numInputs : Nat) : List TrainEvent :=
  (List.range epochs).foldl
    (fun trace _ =>
      (List.range numInputs).foldl
        (fun tr inputIdx =>
          tr ++ [TrainEvent.zeroGrad, TrainEvent.backprop inputIdx, TrainEvent.optStep])
        trace)
    []

/- ===== C3: parameter struct type and initializer (lines 161-233) ===== -/

/-- A host-side weight tensor: the address of its buffer
(`weights.detach().numpy().ctypes.data`) and its contents. -/
structure HostTensorM where
  addr : Nat
  data : Mat
deriving DecidableEq

instance : Inhabited HostTensorM := ⟨⟨0, []⟩⟩

/-- A host-side bias tensor: buffer address and contents. -/
structure HostTensorV where
  addr : Nat
  data : Vec
deriving DecidableEq

/-- An LLVM type slot in the compiled parameter struct. -/
inductive ParamTy
  | i64Ty
  | matTy (rows cols : Nat)
  | vecTy (n : Nat)
deriving DecidableEq

/-- A value slot in the compiled parameter initializer. -/
inductive ParamVal
  | addrOf (a : Nat)
  | matVal (m : Mat)
  | vecVal (v : Vec)
deriving DecidableEq

/-- The LLVM type of a ParamVal entry. -/
def paramTyOf : ParamVal → ParamTy
  | ParamVal.addrOf _ => ParamTy.i64Ty
  | ParamVal.matVal m => ParamTy.matTy m.length (matCols m)
  | ParamVal.vecVal v => ParamTy.vecTy v.length

/-- Embeds the per-node part of `_get_param_struct_type` (lines 161-195):
each afferent weight slot is an `IntType(64)` unless the `no_ref_pass` debug
option is set, in which case it is the literal array type of the weight
data; the optional bias slot is treated the same way.  The first component
is the positional weight array, the second the optional bias entry. -/
def get_param_struct_type_node (no_ref_pass : Bool)
    (affs : List HostTensorM) (bias : Option HostTensorV) :
    List ParamTy × Option ParamTy :=
  (affs.map (fun w =>
      if no_ref_pass then ParamTy.matTy w.data.length (matCols w.data)
      else ParamTy.i64Ty),
   bias.map (fun b =>
      if no_ref_pass then ParamTy.vecTy b.data.length else ParamTy.i64Ty))

/-- Embeds the per-node part of `_get_param_initializer` (lines 197-233):
each afferent weight slot receives the raw memory address of the host tensor
(`.ctypes.data_as(ctypes.c_void_p).value`) unless the `no_ref_pass` debug
option is set, in which case it receives the tensor data itself; the
optional bias entry is treated the same way. -/
def get_param_initializer_node (no_ref_pass : Bool)
    (affs : List HostTensorM) (bias : Option HostTensorV) :
    List ParamVal × Option ParamVal :=
  (affs.map (fun w =>
      if no_ref_pass then ParamVal.matVal w.data else ParamVal.addrOf w.addr),
   bias.map (fun b =>
      if no_ref_pass then ParamVal.vecVal b.data else ParamVal.addrOf b.addr))

/- ===== C2: the emitted forward kernel for one node (lines 375-437) ===== -/

/-- The scalar body of the compiled Linear activation kernel emitted by
`bin_function_creator` (lines 836-841): `fadd(fmul(x, slope), intercept)`. -/
def linear_scalar_kernel (slope intercept x : ℤ) : ℤ := x * slope + intercept

/-- `_gen_inject_bin_function_call` (lines 348-352) together with the loop
body of `bin_function_creator` (lines 863-871): the compiled activation is
applied elementwise to `dim` entries of the buffer. -/
def apply_bin_function (act : ℤ → ℤ) (dim : Nat) (v : Vec) : Vec :=
  (List.range dim).map (fun i => act (v.getD i 0))

/-- The afferent accumulation of `_gen_llvm_forward_function_body`
(lines 398-420): for each incoming edge in positional order the kernel
computes `vxm(predecessor_value, weights)`; the first contribution
initialises the value buffer via `vec_copy`, every further contribution is
added via `vec_add(weighted_inp, value)`.  Each call uses the matrix
dimensions of that edge.  With no afferent the buffer is never written (the
emitted alloca stays uninitialised); that case is modelled by the empty
vector. -/
def gen_forward_accum (preds : List (Vec × Mat)) : Vec :=
  match preds with
  | [] => []
  | p :: ps =>
      ps.foldl
        (fun acc q =>
          vec_add (matCols q.2) (vxm q.2.length (matCols q.2) q.1 q.2) acc)
        (vec_copy (matCols p.2) (vxm p.2.length (matCols p.2) p.1 p.2))

/-- The full emitted forward computation for one non-source node
(lines 396-426): accumulate the weighted afferent contributions, then apply
the node activation function elementwise over the node width `dim`.  The
bias is never added (the bias addition at lines 428-430 is a commented-out
TODO). -/
def gen_forward_node (act : ℤ → ℤ) (dim : Nat) (preds : List (Vec × Mat)) : Vec :=
  apply_bin_function act dim (gen_forward_accum preds)

/-- Modelled from the spec, for comparison with `gen_forward_node`: the
claimed per-node forward computation, in which the pre-activation value is
the accumulated sum over incoming edges PLUS the node bias vector, and the
activation is applied afterwards. -/
def spec_forward_node (act : ℤ → ℤ) (dim : Nat) (preds : List (Vec × Mat))
    (bias : Vec) : Vec :=
  apply_bin_function act dim (vec_add dim (gen_forward_accum preds) bias)

/- ===== C4: compiled activation and derivative kernels over the reals
   (bin_function_creator lines 836-874,
    bin_function_derivative_creator lines 906-943) ===== -/

/-- The scalar body of the compiled Linear activation kernel
(lines 836-841): `x * slope + intercept`. -/
def linear_bin_kernel (slope intercept x : ℝ) : ℝ := x * slope + intercept

/-- The scalar body of the compiled Linear derivative kernel
(lines 906-909): the constant `slope`. -/
def linear_bin_derivative_kernel (slope intercept x : ℝ) : ℝ := slope

/-- The scalar body of the compiled Logistic activation kernel
(lines 843-858): `1 / (1 + exp(-1 * gain * (x - bias) + offset))`.
The `__pnl_builtin_exp` builtin is passed in as `expF`; the theorems
instantiate the field with the reals and `expF` with the exponential
function. -/
def logistic_bin_kernel {α : Type} [Field α] (expF : α → α)
    (gain bias offset x : α) : α :=
  1 / (1 + expF (-1 * gain * (x - bias) + offset))

/-- The scalar body of the compiled Logistic derivative kernel
(lines 911-929): it recomputes the logistic value `r` at the input and
returns `r * (1 - r)`, with no factor of `gain`. -/
def logistic_bin_derivative_kernel {α : Type} [Field α] (expF : α → α)
    (gain bias offset x : α) : α :=
  logistic_bin_kernel expF gain bias offset x *
    (1 - logistic_bin_kernel expF gain bias offset x)

/- ===== C5: the backprop work queue of _gen_llvm_training_backprop
   (lines 513-587) ===== -/

/-- The graph data the backprop generator walks: the designated output
nodes (seed of the queue), the skipped nodes (input nodes and the input
CIM, line 524), the positional afferent lists (pushed onto the queue,
lines 528-529) and the efferent lists (whose errors are read,
lines 567-570). -/
structure BPGraph where
  outputs : List Nat
  skips : List Nat
  afferents : Nat → List Nat
  efferents : Nat → List Nat

/-- The work-queue loop of `_gen_llvm_training_backprop` (lines 522-587),
abstracted to the order in which node errors are emitted.  A popped node is
skipped when already processed or when it is an input node / the input CIM;
otherwise its afferents are appended to the queue and its error is emitted.
A non-output node reads the error of every efferent from `error_dict`
(line 570); a missing entry is a KeyError, modelled as `none`.  The `fuel`
argument bounds the loop (the concrete loop terminates on finite graphs).
On success the chronological processing order is returned. -/
def bpRun (g : BPGraph) : Nat → List Nat → List Nat → Option (List Nat)
  | 0, _, _ => none
  | _ + 1, [], processed => some processed.reverse
  | fuel + 1, n :: queue, processed =>
    if n ∈ processed ∨ n ∈ g.skips then
      bpRun g fuel queue processed
    else if n ∈ g.outputs then
      bpRun g fuel (queue ++ g.afferents n) (n :: processed)
    else if ∀ e ∈ g.efferents n, e ∈ processed then
      bpRun g fuel (queue ++ g.afferents n) (n :: processed)
    else
      none

/-- The ordering invariant on the reversed (newest-first) processed list:
every non-output processed node has all of its efferents processed strictly
earlier (deeper in the list). -/
def bpInv (g : BPGraph) (p : List Nat) : Prop :=
  ∀ n l₁ l₂, p = l₁ ++ n :: l₂ → n ∉ g.outputs → ∀ e ∈ g.efferents n, e ∈ l₂

/- ===== C6: the emitted backprop error for a hidden node
   (lines 561-584) ===== -/

/-- The first-write-then-add accumulation used for the efferent error
contributions (lines 564-582): the first `vxm_transposed` result is written
directly into the error buffer, each further contribution is combined via
`vec_add(new_val, error_val)` over the node width `dim`.  With no
contribution the buffer stays unwritten, modelled by the empty vector. -/
def accum_direct (dim : Nat) : List Vec → Vec
  | [] => []
  | c :: cs => cs.foldl (fun acc w => vec_add dim w acc) c

/-- The emitted error value for a non-output, non-input node
(lines 561-584): accumulate `vxm_transposed(efferent_error, weights)` over
the efferent edges (each with its own matrix dimensions), then take the
elementwise product with the activation derivative evaluated at the
retained pre-activation values (`vec_hadamard(activation_func_derivative,
error_val)`). -/
def gen_backprop_error_val (dim : Nat) (act_deriv : Vec)
    (effs : List (Vec × Mat)) : Vec :=
  vec_hadamard dim act_deriv
    (accum_direct dim
      (effs.map (fun p => vxm_transposed p.2.length (matCols p.2) p.1 p.2)))

/- ===== C7: compile-time dispatch over activation, loss and optimizer
   kinds (lines 692-711, 836-861, 906-932) ===== -/

/-- The closed set of node function kinds the object model can supply to
the compiler (Linear, Logistic, ReLU - transferfunctions imported at
line 4). -/
inductive PnlFunction
  | linear (slope intercept : ℚ)
  | logistic (gain bias offset : ℚ)
  | relu (gain bias leak : ℚ)
deriving DecidableEq

/-- A compiled activation kernel as resolved by `bin_function_creator`. -/
inductive ScalarKernel
  | linearK (slope intercept : ℚ)
  | logisticK (gain bias offset : ℚ)
deriving DecidableEq

/-- A compiled activation-derivative kernel as resolved by
`bin_function_derivative_creator`. -/
inductive ScalarDerivKernel
  | linearDerivK (slope : ℚ)
  | logisticDerivK (gain bias offset : ℚ)
deriving DecidableEq

def err_unsupported_activation : String := "Unsupported compiled activation function"

def err_unsupported_derivative : String :=
  "Function type is currently unsupported by compiled execution"

def err_unsupported_optimizer : String := "OPTIMIZER TYPE NOT SUPPORTED"

def err_unsupported_loss : String := "LOSS TYPE NOT SUPPORTED"

/-- Kernel resolution of `bin_function_creator` (lines 836-861): Linear and
Logistic get kernels, every other function kind raises. -/
def bin_function_creator : PnlFunction → Except String ScalarKernel
  | PnlFunction.linear s i => Except.ok (ScalarKernel.linearK s i)
  | PnlFunction.logistic g b o => Except.ok (ScalarKernel.logisticK g b o)
  | PnlFunction.relu _ _ _ => Except.error err_unsupported_activation

/-- Kernel resolution of `bin_function_derivative_creator` (lines 906-932):
Linear and Logistic get derivative kernels, every other function kind
raises. -/
def bin_function_derivative_creator : PnlFunction → Except String ScalarDerivKernel
  | PnlFunction.linear s _ => Except.ok (ScalarDerivKernel.linearDerivK s)
  | PnlFunction.logistic g b o => Except.ok (ScalarDerivKernel.logisticDerivK g b o)
  | PnlFunction.relu _ _ _ => Except.error err_unsupported_derivative

inductive OptimizerKind
  | adam
  | sgd
deriving DecidableEq

inductive LossKind
  | mse
deriving DecidableEq

/-- The optimizer dispatch of `_gen_llvm_training_function_body`
(lines 693-699): the strings adam and sgd are accepted, everything else
raises. -/
def setup_optimizer (s : String) : Except String OptimizerKind :=
  if s = "adam" then Except.ok OptimizerKind.adam
  else if s = "sgd" then Except.ok OptimizerKind.sgd
  else Except.error err_unsupported_optimizer

/-- The loss dispatch of `_gen_llvm_training_function_body`
(lines 702-706): the string mse is accepted, everything else raises. -/
def setup_loss (s : String) : Except String LossKind :=
  if s = "mse" then Except.ok LossKind.mse
  else Except.error err_unsupported_loss

/-- Per-node kernel creation over the whole graph (the forward body calls
`bin_function_creator` for every component, line 425); the first raised
error aborts the whole generation. -/
def create_kernels : List PnlFunction → Except String (List ScalarKernel)
  | [] => Except.ok []
  | f :: fs =>
      match bin_function_creator f with
      | Except.error e => Except.error e
      | Except.ok k =>
          match create_kernels fs with
          | Except.error e => Except.error e
          | Except.ok ks => Except.ok (k :: ks)

/-- Per-node derivative-kernel creation over the whole graph (the backprop
body calls `bin_function_derivative_creator` for every popped node,
line 535); the first raised error aborts the whole generation. -/
def create_derivative_kernels : List PnlFunction → Except String (List ScalarDerivKernel)
  | [] => Except.ok []
  | f :: fs =>
      match bin_function_derivative_creator f with
      | Except.error e => Except.error e
      | Except.ok k =>
          match create_derivative_kernels fs with
          | Except.error e => Except.error e
          | Except.ok ks => Except.ok (k :: ks)

/-- The compiled training artifact: optimizer kind, loss kind, and the
resolved forward and derivative kernels of every node. -/
structure CompiledTraining where
  optimizer : OptimizerKind
  loss : LossKind
  forwardKernels : List ScalarKernel
  derivKernels : List ScalarDerivKernel
deriving DecidableEq

/-- The compile-time setup of `_gen_llvm_training_function_body`
(lines 692-711): resolve the optimizer kind, then the loss kind, then emit
the backprop function, which resolves a derivative kernel and a forward
kernel for every node.  Any unsupported kind aborts the whole compilation
with an error. -/
def gen_llvm_training_function (optimizer_type loss_type : String)
    (nodeFns : List PnlFunction) : Except String CompiledTraining :=
  match setup_optimizer optimizer_type with
  | Except.error e => Except.error e
  | Except.ok opt =>
    match setup_loss loss_type with
    | Except.error e => Except.error e
    | Except.ok lss =>
      match create_derivative_kernels nodeFns with
      | Except.error e => Except.error e
      | Except.ok derivs =>
        match create_kernels nodeFns with
        | Except.error e => Except.error e
        | Except.ok fwds =>
            Except.ok { optimizer := opt, loss := lss,
                        forwardKernels := fwds, derivKernels := derivs }

/-- Whether `e` is a successful compilation. -/
def exceptOk {α : Type} (e : Except String α) : Bool :=
  match e with
  | Except.ok _ => true
  | Except.error _ => false

/-- Run-time application of a node activation in compiled execution: only
function kinds for which a kernel exists can be evaluated; the others have
no kernel, modelled as `none`.  The exponential builtin is abstracted as
`expQ`. -/
def apply_compiled_activation (expQ : ℚ → ℚ) : PnlFunction → ℚ → Option ℚ
  | PnlFunction.linear s i, x => some (x * s + i)
  | PnlFunction.logistic g b o, x => some (1 / (1 + expQ (-1 * g * (x - b) + o)))
  | PnlFunction.relu _ _ _, _ => none

/-- Run-time application of a node activation derivative in compiled
execution, analogous to `apply_compiled_activation`. -/
def apply_compiled_derivative (expQ : ℚ → ℚ) : PnlFunction → ℚ → Option ℚ
  | PnlFunction.linear s _, _ => some s
  | PnlFunction.logistic g b o, x =>
      some ((1 / (1 + expQ (-1 * g * (x - b) + o))) *
            (1 - 1 / (1 + expQ (-1 * g * (x - b) + o))))
  | PnlFunction.relu _ _ _, _ => none

/-- The function kinds supported by the compiled path. -/
def supported_function : PnlFunction → Bool
  | PnlFunction.linear _ _ => true
  | PnlFunction.logistic _ _ _ => true
  | PnlFunction.relu _ _ _ => false

/- ===== C8 and C9: the Python forward method (lines 729-779) ===== -/

/-- The data `forward` walks: the ordered execution sets and, per node,
the value width, the positionally ordered afferent (predecessor, weight
matrix) list, the optional bias vector and the scalar activation function
(applied elementwise by torch broadcasting). -/
structure PyModel where
  executionSets : List (List Nat)
  width : Nat → Nat
  afferents : Nat → List (Nat × Mat)
  bias : Nat → Option Vec
  act : Nat → ℤ → ℤ

/-- `torch.matmul(input_value, weights)` for a vector and a matrix: the
row-vector times matrix product with the dimensions of the weight matrix. -/
def torch_matmul (v : Vec) (W : Mat) : Vec := vxm W.length (matCols W) v W

/-- The afferent value read in the forward loop (lines 751-755): a
predecessor in the current execution set is read from the frozen snapshot
taken at the start of the set, every other predecessor from the live node
values. -/
def afferent_input (sameSet : List Nat) (frozen cur : Nat → Vec) (p : Nat) : Vec :=
  if p ∈ sameSet then frozen p else cur p

/-- Functional update of the node-value map (line 762). -/
def update_value (st : Nat → Vec) (c : Nat) (v : Vec) : Nat → Vec :=
  fun n => if n = c then v else st n

/-- The weighted-sum loop of `forward` (lines 748-756): start from a zero
vector of the node width and add `torch.matmul(input_value, weights)` for
every afferent in positional order. -/
def node_weighted_sum (m : PyModel) (sameSet : List Nat)
    (frozen cur : Nat → Vec) (c : Nat) : Vec :=
  (m.afferents c).foldl
    (fun acc pW =>
      vec_add (m.width c) acc
        (torch_matmul (afferent_input sameSet frozen cur pW.1) pW.2))
    (List.replicate (m.width c) 0)

/-- The bias addition of `forward` (lines 757-758): added when the node
has pytorch biases, skipped otherwise. -/
def node_with_bias (m : PyModel) (c : Nat) (pre : Vec) : Vec :=
  match m.bias c with
  | some b => vec_add (m.width c) pre b
  | none => pre

/-- The per-node forward computation (lines 744-759): an origin node
applies its function to the supplied input; any other node computes its
weighted afferent sum, adds its bias if present, and applies its function
elementwise. -/
def pytorch_forward_node (m : PyModel) (inputs : Nat → Vec) (i : Nat)
    (sameSet : List Nat) (frozen cur : Nat → Vec) (c : Nat) : Vec :=
  if i = 0 then (inputs c).map (m.act c)
  else (node_with_bias m c (node_weighted_sum m sameSet frozen cur c)).map (m.act c)

/-- One execution set of the forward loop (lines 732-762): freeze the
values at the start of the set, then update each component of the set in
order with its newly computed value. -/
def pytorch_forward_set (m : PyModel) (inputs : Nat → Vec) (i : Nat)
    (st : Nat → Vec) : Nat → Vec :=
  (m.executionSets.getD i []).foldl
    (fun cur c =>
      update_value cur c
        (pytorch_forward_node m inputs i (m.executionSets.getD i []) st cur c))
    st

/-- The forward pass truncated to the first `k` execution sets. -/
def pytorch_forward_upto (m : PyModel) (inputs : Nat → Vec) (st : Nat → Vec)
    (k : Nat) : Nat → Vec :=
  (List.range k).foldl (fun acc i => pytorch_forward_set m inputs i acc) st

/-- The node-value map after one call of `forward` (lines 729-779): all
execution sets processed in order, starting from the current node values
`st`. -/
def pytorch_forward (m : PyModel) (inputs : Nat → Vec) (st : Nat → Vec) :
    Nat → Vec :=
  pytorch_forward_upto m inputs st m.executionSets.length

/-- Validity of the scheduled graph, per the execution-set invariants the
scheduler establishes: distinct execution sets are disjoint (every node
appears in at most one set), and every afferent of a node in set `i` lies
in a strictly earlier set. -/
def valid_layered (m : PyModel) : Prop :=
  (∀ i < m.executionSets.length, ∀ j < m.executionSets.length,
      i = j ∨ ∀ c ∈ m.executionSets.getD i [], c ∉ m.executionSets.getD j []) ∧
  (∀ i < m.executionSets.length, ∀ c ∈ m.executionSets.getD i [],
      ∀ pW ∈ m.afferents c, ∃ j < i, pW.1 ∈ m.executionSets.getD j [])

/- ===== C10: weight and bias accessors (lines 980-993) ===== -/

/-- A heap of numpy arrays; an address is an index into the list. -/
structure NumpyHeap where
  arrays : List Mat

/-- Read the array stored at address `a`. -/
def heap_read (h : NumpyHeap) (a : Nat) : Mat := h.arrays.getD a []

/-- Overwrite the array stored at address `a` (mutation of a returned
array by the caller). -/
def heap_write (h : NumpyHeap) (a : Nat) (m : Mat) : NumpyHeap :=
  ⟨h.arrays.set a m⟩

/-- Allocate a fresh array holding `m`, returning the new heap and the
fresh address. -/
def heap_alloc (h : NumpyHeap) (m : Mat) : NumpyHeap × Nat :=
  (⟨h.arrays ++ [m]⟩, h.arrays.length)

/-- One step of the accessor loop: `weights.detach().numpy().copy()`
allocates a fresh array whose contents are copied from the tensor at `a`,
and the fresh address is appended to the result list. -/
def copy_out_step (acc : NumpyHeap × List Nat) (a : Nat) : NumpyHeap × List Nat :=
  ((heap_alloc acc.1 (heap_read acc.1 a)).1,
   acc.2 ++ [(heap_alloc acc.1 (heap_read acc.1 a)).2])

/-- The common body of the two accessors: every stored tensor is exported
as a fresh copy at a fresh address. -/
def copy_out_arrays (h : NumpyHeap) (addrs : List Nat) : NumpyHeap × List Nat :=
  addrs.foldl copy_out_step (h, [])

/-- Embeds `get_weights_for_projections` (lines 980-984): every projection
weight tensor is exported as a fresh copy. -/
def get_weights_for_projections (h : NumpyHeap) (projectionAddrs : List Nat) :
    NumpyHeap × List Nat :=
  copy_out_arrays h projectionAddrs

/-- Embeds `get_biases_for_mechanisms` (lines 989-993): every mechanism
bias tensor is exported as a fresh copy. -/
def get_biases_for_mechanisms (h : NumpyHeap) (mechanismAddrs : List Nat) :
    NumpyHeap × List Nat :=
  copy_out_arrays h mechanismAddrs

/- ===== Concrete instances used by the witnesses ===== -/

/-- A three-node chain input 0 -> hidden 1 -> output 2 for the backprop
order witness; node 0 is an input node (skipped by the queue). -/
def bpgW : BPGraph where
  outputs := [2]
  skips := [0]
  afferents := fun n => if n = 2 then [1] else if n = 1 then [0] else []
  efferents := fun n => if n = 1 then [2] else if n = 0 then [1] else []

/-- A two-set model (source node 0 feeding node 1 through the weight
matrix [[2]], with bias [3] and identity activations) for the forward
witnesses. -/
def pyW : PyModel where
  executionSets := [[0], [1]]
  width := fun _ => 1
  afferents := fun n => if n = 1 then [(0, [[2]])] else []
  bias := fun n => if n = 1 then some [3] else none
  act := fun _ x => x

/-- The input assignment used by the forward witnesses. -/
def pyW_inputs : Nat → Vec := fun _ => [5]

/-- The stale initial node-value map used by the forward witnesses. -/
def pyW_state : Nat → Vec := fun _ => []

/- ===================================================================== -/
/- =====                   Lemmas and theorems                     ===== -/
/- ===================================================================== -/

/- ----- generic helpers ----- -/

theorem rangeMap_getD {β : Type} [Inhabited β] (f : Nat → β) (d : β)
    (dim i : Nat) (hi : i < dim) :
    (((List.range dim).map f).getD i d) = f i := by
  rw [List.getD_eq_getElem?_getD, List.getElem?_map, List.getElem?_range hi]
  rfl

theorem vec_add_getD (dim : Nat) (u v : Vec) (i : Nat) (hi : i < dim) :
    (vec_add dim u v).getD i 0 = u.getD i 0 + v.getD i 0 :=
  rangeMap_getD _ _ dim i hi

theorem vec_copy_getD (dim : Nat) (u : Vec) (i : Nat) (hi : i < dim) :
    (vec_copy dim u).getD i 0 = u.getD i 0 :=
  rangeMap_getD _ _ dim i hi

theorem vec_hadamard_getD (dim : Nat) (u v : Vec) (i : Nat) (hi : i < dim) :
    (vec_hadamard dim u v).getD i 0 = u.getD i 0 * v.getD i 0 :=
  rangeMap_getD _ _ dim i hi

theorem foldl_vec_add_getD (dim i : Nat) (hi : i < dim) :
    ∀ (cs : List Vec) (acc : Vec),
      (cs.foldl (fun a w => vec_add dim w a) acc).getD i 0
        = acc.getD i 0 + (cs.map (fun v => v.getD i 0)).sum := by
  intro cs
  induction cs with
  | nil => intro acc; simp
  | cons c cs ih =>
      intro acc
      rw [List.foldl_cons, ih, vec_add_getD dim c acc i hi]
      simp
      ring

theorem foldl_append_eq_flatList {α β : Type} (g : List β → α → List β)
    (f : α → List β) (hg : ∀ acc x, g acc x = acc ++ f x) :
    ∀ (l : List α) (init : List β), l.foldl g init = init ++ flatList (l.map f) := by
  intro l
  induction l with
  | nil => intro init; simp [flatList]
  | cons a l ih =>
      intro init
      rw [List.foldl_cons, ih, hg]
      simp [flatList, List.append_assoc]

theorem flatList_count {α : Type} [DecidableEq α] (a : α) :
    ∀ ls : List (List α), (flatList ls).count a = (ls.map (fun l => l.count a)).sum := by
  intro ls
  induction ls with
  | nil => simp [flatList]
  | cons l ls ih => simp [flatList, List.count_append, ih]

theorem sum_map_const_nat {α : Type} (c : Nat) :
    ∀ l : List α, (l.map (fun _ => c)).sum = l.length * c := by
  intro l
  induction l with
  | nil => simp
  | cons x l ih => simp [ih, Nat.succ_mul]; ring

/- ----- C1 ----- -/

theorem training_loop_trace_eq (epochs numInputs : Nat) :
    training_loop_trace epochs numInputs
      = flatList ((List.range epochs).map
          (fun _ => flatList ((List.range numInputs).map sample_block))) := by
  have hinner : ∀ tr : List TrainEvent,
      (List.range numInputs).foldl
        (fun tr inputIdx =>
          tr ++ [TrainEvent.zeroGrad, TrainEvent.backprop inputIdx, TrainEvent.optStep])
        tr
        = tr ++ flatList ((List.range numInputs).map sample_block) := by
    intro tr
    exact foldl_append_eq_flatList _ sample_block (fun acc x => rfl) (List.range numInputs) tr
  unfold training_loop_trace
  have houter := foldl_append_eq_flatList
    (fun (trace : List TrainEvent) (_ : Nat) =>
      (List.range numInputs).foldl
        (fun tr inputIdx =>
          tr ++ [TrainEvent.zeroGrad, TrainEvent.backprop inputIdx, TrainEvent.optStep])
        trace)
    (fun _ => flatList ((List.range numInputs).map sample_block))
    (fun acc x => hinner acc)
    (List.range epochs) []
  simpa using houter

/-- C1 (counterexample): on a training invocation with one epoch over a
batch of two (input, target) pairs, the emitted loop invokes the optimizer
step twice, not once, and the first step precedes the backpropagation of
the second pair, so a weight update is applied from a partial-batch
gradient. -/
theorem c1_counterexample :
    training_loop_trace 1 2
      = [TrainEvent.zeroGrad, TrainEvent.backprop 0, TrainEvent.optStep,
         TrainEvent.zeroGrad, TrainEvent.backprop 1, TrainEvent.optStep]
    ∧ (training_loop_trace 1 2).count TrainEvent.optStep ≠ 1 := by
  constructor
  · rfl
  · decide

/-- C1 (amended): within one training invocation the emitted loop is, for
every epoch and every (input, target) pair in order, the three-call block
zero-grad, backprop of that single pair, optimizer step; consequently the
optimizer step runs epochs times numInputs times, once per pair, each time
from the gradient of the single pair backpropagated since the immediately
preceding zero-grad - i.e. updates are per-sample, not per-batch. -/
theorem c1_per_sample_optimizer_steps (epochs numInputs : Nat) :
    training_loop_trace epochs numInputs
      = flatList ((List.range epochs).map
          (fun _ => flatList ((List.range numInputs).map sample_block)))
    ∧ (training_loop_trace epochs numInputs).count TrainEvent.optStep
        = epochs * numInputs := by
  refine ⟨training_loop_trace_eq epochs numInputs, ?_⟩
  rw [training_loop_trace_eq, flatList_count]
  have hblock : ∀ i : Nat, (sample_block i).count TrainEvent.optStep = 1 := by
    intro i
    simp [sample_block]
  have hinner : (flatList ((List.range numInputs).map sample_block)).count
      TrainEvent.optStep = numInputs := by
    rw [flatList_count]
    have : ((List.range numInputs).map sample_block).map
        (fun l => l.count TrainEvent.optStep)
        = (List.range numInputs).map (fun _ => 1) := by
      rw [List.map_map]
      exact List.map_congr_left (fun i _ => hblock i)
    rw [this, sum_map_const_nat]
    simp
  have : ((List.range epochs).map
        (fun _ => flatList ((List.range numInputs).map sample_block))).map
        (fun l => l.count TrainEvent.optStep)
      = (List.range epochs).map (fun _ => numInputs) := by
    rw [List.map_map]
    exact List.map_congr_left (fun i _ => hinner)
  rw [this, sum_map_const_nat]
  simp

/- ----- C2 ----- -/

/-- C2 (code bug): on a node with a single afferent edge (predecessor value
[1], weight matrix [[1]]), identity Linear activation and bias vector [1],
the emitted forward kernel produces [1] - the bias is never added (the
addition is a commented-out TODO at lines 428-430) - whereas the claimed
computation, with the bias added to the pre-activation value, produces
[2]. -/
theorem c2_forward_kernel_omits_bias :
    gen_forward_node (linear_scalar_kernel 1 0) 1 [([1], [[1]])] = [1]
    ∧ spec_forward_node (linear_scalar_kernel 1 0) 1 [([1], [[1]])] [1] = [2]
    ∧ ([(1 : ℤ)] ≠ [(2 : ℤ)]) := by
  refine ⟨?_, ?_, by decide⟩
  · decide
  · decide

/- ----- C3 ----- -/

/-- C3 (counterexample): with no debug option set (`no_ref_pass` absent,
the default configuration), the parameter initializer entry for a weight
tensor at host address 100 with data [[1]] is the stored address, not a
copy of the matrix data, contradicting the claim that value semantics is
the default. -/
theorem c3_counterexample :
    (get_param_initializer_node false [⟨100, [[1]]⟩] none).1
      = [ParamVal.addrOf 100]
    ∧ ParamVal.addrOf 100 ≠ ParamVal.matVal [[1]] := by
  constructor
  · rfl
  · decide

/-- C3 (amended): in the default configuration every edge weight matrix
(and bias vector) enters the compiled parameter layout by reference - the
host tensor memory address is stored in an i64 slot - and value semantics
(embedding a copy of the data as a literal array) is used exactly when the
`no_ref_pass` debug option is set; in both modes the initializer entries
agree slot-for-slot with the parameter struct types. -/
theorem c3_default_is_reference_semantics (no_ref_pass : Bool)
    (affs : List HostTensorM) (bias : Option HostTensorV)
    (k : Nat) (hk : k < affs.length) :
    ((get_param_initializer_node no_ref_pass affs bias).1.map paramTyOf
        = (get_param_struct_type_node no_ref_pass affs bias).1
      ∧ (get_param_initializer_node no_ref_pass affs bias).2.map paramTyOf
        = (get_param_struct_type_node no_ref_pass affs bias).2)
    ∧ (get_param_initializer_node no_ref_pass affs bias).1.getD k (ParamVal.addrOf 0)
        = (if no_ref_pass then ParamVal.matVal (affs.getD k default).data
           else ParamVal.addrOf (affs.getD k default).addr) := by
  refine ⟨⟨?_, ?_⟩, ?_⟩
  · show ((affs.map fun w =>
          if no_ref_pass then ParamVal.matVal w.data else ParamVal.addrOf w.addr).map
            paramTyOf)
        = affs.map (fun w =>
            if no_ref_pass then ParamTy.matTy w.data.length (matCols w.data)
            else ParamTy.i64Ty)
    rw [List.map_map]
    cases no_ref_pass <;> rfl
  · cases bias with
    | none => rfl
    | some b => cases no_ref_pass <;> rfl
  · have hmap : (get_param_initializer_node no_ref_pass affs bias).1
        = affs.map (fun w =>
            if no_ref_pass then ParamVal.matVal w.data else ParamVal.addrOf w.addr) := rfl
    rw [hmap, List.getD_eq_getElem?_getD, List.getElem?_map,
        List.getElem?_eq_getElem hk]
    have hgd : affs.getD k default = affs[k] := by
      rw [List.getD_eq_getElem?_getD, List.getElem?_eq_getElem hk]
      rfl
    rw [hgd]
    rfl

/- ----- C4 ----- -/

theorem logistic_kernel_hasDerivAt (g b o x : ℝ) :
    HasDerivAt (fun t => logistic_bin_kernel Real.exp g b o t)
      (g * (logistic_bin_kernel Real.exp g b o x *
            (1 - logistic_bin_kernel Real.exp g b o x))) x := by
  have hu : HasDerivAt (fun t : ℝ => -1 * g * (t - b) + o) (-1 * g) x := by
    have h1 : HasDerivAt (fun t : ℝ => t - b) 1 x := (hasDerivAt_id x).sub_const b
    have h2 := (h1.const_mul (-1 * g)).add_const o
    simpa using h2
  have he := hu.exp
  have hd := he.const_add 1
  have hpos : (0 : ℝ) < 1 + Real.exp (-1 * g * (x - b) + o) := by positivity
  have hne : (1 : ℝ) + Real.exp (-1 * g * (x - b) + o) ≠ 0 := ne_of_gt hpos
  have hinv := hd.inv hne
  have hfun : (fun t => logistic_bin_kernel Real.exp g b o t)
      = fun t => (1 + Real.exp (-1 * g * (t - b) + o))⁻¹ := by
    funext t
    simp [logistic_bin_kernel, one_div]
  rw [hfun]
  convert hinv using 1
  simp only [logistic_bin_kernel]
  field_simp
  ring

/-- C4 (code bug): at the failing input (Logistic activation with gain 2,
bias 0, offset 0, pre-activation value 0) the compiled Logistic derivative
kernel returns 1/4, whereas the mathematical derivative of the compiled
Logistic activation kernel at that point is 1/2: the emitted derivative
omits the factor gain, so for gain different from 1 the computed weight
gradients are not the derivative of the loss. -/
theorem c4_logistic_derivative_kernel_wrong :
    logistic_bin_derivative_kernel Real.exp 2 0 0 0 = 1 / 4
    ∧ deriv (fun t => logistic_bin_kernel Real.exp 2 0 0 t) 0 = 1 / 2
    ∧ ((1 : ℝ) / 4 ≠ 1 / 2) := by
  have hval : logistic_bin_kernel Real.exp 2 0 0 (0 : ℝ) = 1 / 2 := by
    simp [logistic_bin_kernel, Real.exp_zero]
    norm_num
  refine ⟨?_, ?_, by norm_num⟩
  · rw [logistic_bin_derivative_kernel, hval]
    norm_num
  · have h := (logistic_kernel_hasDerivAt 2 0 0 0).deriv
    rw [h, hval]
    norm_num

/- ----- C5 ----- -/

theorem bpInv_nil (g : BPGraph) : bpInv g [] := by
  intro n l₁ l₂ hdec
  exact absurd hdec (by simp)

theorem bpInv_cons (g : BPGraph) (n : Nat) (p : List Nat)
    (hp : bpInv g p)
    (hn : n ∉ g.outputs → ∀ e ∈ g.efferents n, e ∈ p) :
    bpInv g (n :: p) := by
  intro m l₁ l₂ hdec hm e he
  cases l₁ with
  | nil =>
      rw [List.nil_append] at hdec
      injection hdec with h1 h2
      subst h1
      subst h2
      exact hn hm e he
  | cons a t =>
      rw [List.cons_append] at hdec
      injection hdec with h1 h2
      exact hp m t l₂ h2 hm e he

theorem bpRun_some_inv (g : BPGraph) :
    ∀ (fuel : Nat) (q p L : List Nat), bpInv g p → bpRun g fuel q p = some L →
      ∃ p2, bpInv g p2 ∧ L = p2.reverse := by
  intro fuel
  induction fuel with
  | zero =>
      intro q p L _ h
      simp [bpRun] at h
  | succ fuel ih =>
      intro q p L hp h
      cases q with
      | nil =>
          simp [bpRun] at h
          exact ⟨p, hp, h.symm⟩
      | cons n queue =>
          simp only [bpRun] at h
          split_ifs at h with h1 h2 h3
          · exact ih queue p L hp h
          · refine ih _ _ _ ?_ h
            exact bpInv_cons g n p hp (fun hn => absurd h2 hn)
          · exact ih _ _ _ (bpInv_cons g n p hp (fun _ => h3)) h

/-- C5 (confirmed): whenever the backprop generation succeeds, the
chronological order in which node errors are emitted has the property that
every non-output node is processed strictly after all nodes whose errors
it reads: for every decomposition of the order around a non-output node
`n`, every efferent of `n` lies in the earlier segment.  (The queue logic
indexes `error_dict` by efferent, so a node whose efferents are not all
finalized aborts generation rather than reading an unfinished error.) -/
theorem c5_successors_processed_first (g : BPGraph) (fuel : Nat)
    (L : List Nat) (n : Nat) (l₁ l₂ : List Nat)
    (hrun : bpRun g fuel g.outputs [] = some L)
    (hL : L = l₁ ++ n :: l₂) (hn : n ∉ g.outputs) :
    ∀ e ∈ g.efferents n, e ∈ l₁ := by
  obtain ⟨p2, hinv, hrev⟩ :=
    bpRun_some_inv g fuel g.outputs [] L (bpInv_nil g) hrun
  have hp2 : p2 = l₂.reverse ++ n :: l₁.reverse := by
    have hrr : p2.reverse = l₁ ++ n :: l₂ := by rw [← hrev, hL]
    calc p2 = p2.reverse.reverse := (List.reverse_reverse p2).symm
    _ = (l₁ ++ n :: l₂).reverse := by rw [hrr]
    _ = l₂.reverse ++ n :: l₁.reverse := by
        simp [List.reverse_append, List.reverse_cons, List.append_assoc]
  intro e he
  exact List.mem_reverse.mp (hinv n l₂.reverse l₁.reverse hp2 hn e he)

/-- C5 (witness): on the chain 0 -> 1 -> 2 with output node 2 and input
node 0, generation succeeds with chronological order [2, 1], and the
theorem yields that every efferent of the hidden node 1 was processed in
the earlier segment [2]. -/
theorem c5_witness :
    bpRun bpgW 10 bpgW.outputs [] = some [2, 1]
    ∧ ∀ e ∈ bpgW.efferents 1, e ∈ [2] :=
  ⟨by decide,
   c5_successors_processed_first bpgW 10 [2, 1] 1 [2] [] (by decide) rfl
     (by decide)⟩

/- ----- C6 ----- -/

/-- C6 (confirmed): for a non-output, non-source node with at least one
efferent edge, every entry (below the node width) of the emitted error
value equals the activation derivative at the retained pre-activation
times the sum, over the efferent edges, of the corresponding entry of
`vxm_transposed(efferent_error, edge_weight)`. -/
theorem c6_hidden_error_formula (dim : Nat) (act_deriv : Vec)
    (effs : List (Vec × Mat)) (hne : effs ≠ []) (i : Nat) (hi : i < dim) :
    (gen_backprop_error_val dim act_deriv effs).getD i 0
      = act_deriv.getD i 0 *
        ((effs.map (fun p => vxm_transposed p.2.length (matCols p.2) p.1 p.2)).map
            (fun v => v.getD i 0)).sum := by
  obtain ⟨c, cs, rfl⟩ := List.exists_cons_of_ne_nil hne
  simp only [gen_backprop_error_val, accum_direct, List.map_cons]
  rw [vec_hadamard_getD dim _ _ i hi, foldl_vec_add_getD dim i hi]
  simp

/-- C6 (witness): a concrete instance with one efferent edge (error [3],
weight [[4]], derivative [2], width 1). -/
theorem c6_witness :
    (([(([3], [[4]]))] : List (Vec × Mat)) ≠ [])
    ∧ (gen_backprop_error_val 1 [2] [([3], [[4]])]).getD 0 0
        = ([2] : Vec).getD 0 0 *
          ((([(([3], [[4]]))] : List (Vec × Mat)).map
              (fun p => vxm_transposed p.2.length (matCols p.2) p.1 p.2)).map
              (fun v => v.getD 0 0)).sum :=
  ⟨by decide,
   c6_hidden_error_formula 1 [2] [([3], [[4]])] (by decide) 0 (by decide)⟩

/- ----- C7 ----- -/

theorem exceptOk_setup_optimizer (s : String) :
    exceptOk (setup_optimizer s) = true ↔ (s = "adam" ∨ s = "sgd") := by
  unfold setup_optimizer
  split_ifs with h1 h2
  · simp [exceptOk, h1]
  · simp [exceptOk, h2]
  · simp [exceptOk, h1, h2]

theorem exceptOk_setup_loss (s : String) :
    exceptOk (setup_loss s) = true ↔ s = "mse" := by
  unfold setup_loss
  split_ifs with h1 <;> simp [exceptOk, h1]

theorem exceptOk_create_kernels (fs : List PnlFunction) :
    exceptOk (create_kernels fs) = true ↔ ∀ f ∈ fs, supported_function f = true := by
  induction fs with
  | nil => simp [create_kernels, exceptOk]
  | cons f fs ih =>
      cases f <;>
        cases hcf : create_kernels fs <;>
          simp_all [create_kernels, bin_function_creator, exceptOk,
            supported_function]

theorem exceptOk_create_derivative_kernels (fs : List PnlFunction) :
    exceptOk (create_derivative_kernels fs) = true
      ↔ ∀ f ∈ fs, supported_function f = true := by
  induction fs with
  | nil => simp [create_derivative_kernels, exceptOk]
  | cons f fs ih =>
      cases f <;>
        cases hcf : create_derivative_kernels fs <;>
          simp_all [create_derivative_kernels, bin_function_derivative_creator,
            exceptOk, supported_function]

theorem exceptOk_gen_training (o l : String) (ns : List PnlFunction) :
    exceptOk (gen_llvm_training_function o l ns) = true ↔
      (exceptOk (setup_optimizer o) = true
        ∧ exceptOk (setup_loss l) = true
        ∧ exceptOk (create_derivative_kernels ns) = true
        ∧ exceptOk (create_kernels ns) = true) := by
  cases ho : setup_optimizer o <;> cases hl : setup_loss l <;>
    cases hd : create_derivative_kernels ns <;> cases hc : create_kernels ns <;>
      simp [gen_llvm_training_function, exceptOk, ho, hl, hd, hc]

/-- C7 (confirmed): training-kernel generation succeeds exactly when the
optimizer kind is adam or sgd, the loss kind is mse and every node
function is a supported kind (Linear or Logistic) - any other activation,
loss or optimizer raises before any kernel exists, and the whole
compilation fails; and whenever generation succeeds, run-time application
of every node activation and activation derivative is defined (no
missing-kernel failure can occur during a run). -/
theorem c7_unsupported_kinds_rejected_at_compile_time
    (optimizer_type loss_type : String) (nodeFns : List PnlFunction) :
    (exceptOk (gen_llvm_training_function optimizer_type loss_type nodeFns) = true ↔
      ((optimizer_type = "adam" ∨ optimizer_type = "sgd")
        ∧ loss_type = "mse"
        ∧ ∀ f ∈ nodeFns, supported_function f = true))
    ∧ (exceptOk (gen_llvm_training_function optimizer_type loss_type nodeFns) = true →
        ∀ f ∈ nodeFns, ∀ (expQ : ℚ → ℚ) (x : ℚ),
          (apply_compiled_activation expQ f x).isSome
            ∧ (apply_compiled_derivative expQ f x).isSome) := by
  have hiff : exceptOk (gen_llvm_training_function optimizer_type loss_type nodeFns) = true ↔
      ((optimizer_type = "adam" ∨ optimizer_type = "sgd")
        ∧ loss_type = "mse"
        ∧ ∀ f ∈ nodeFns, supported_function f = true) := by
    rw [exceptOk_gen_training, exceptOk_setup_optimizer, exceptOk_setup_loss,
      exceptOk_create_derivative_kernels, exceptOk_create_kernels]
    tauto
  refine ⟨hiff, ?_⟩
  intro h f hf expQ x
  have hsupp : supported_function f = true := (hiff.mp h).2.2 f hf
  cases f <;> simp_all [supported_function, apply_compiled_activation,
    apply_compiled_derivative]

/-- C7 (witness): a graph of one Linear and one Logistic node with the adam
optimizer and mse loss compiles successfully. -/
theorem c7_witness :
    exceptOk (gen_llvm_training_function "adam" "mse"
        [PnlFunction.linear 1 0, PnlFunction.logistic 1 0 0]) = true :=
  (c7_unsupported_kinds_rejected_at_compile_time "adam" "mse"
      [PnlFunction.linear 1 0, PnlFunction.logistic 1 0 0]).1.mpr
    (by constructor
        · left
          rfl
        · constructor
          · rfl
          · intro f hf
            fin_cases hf <;> rfl)

/- ----- C10 ----- -/

theorem copy_out_fold_extends :
    ∀ (addrs : List Nat) (h : NumpyHeap) (rs : List Nat),
      (∃ t, (addrs.foldl copy_out_step (h, rs)).1.arrays = h.arrays ++ t)
      ∧ (∀ r ∈ (addrs.foldl copy_out_step (h, rs)).2,
          r ∈ rs ∨ h.arrays.length ≤ r) := by
  intro addrs
  induction addrs with
  | nil =>
      intro h rs
      refine ⟨⟨[], by simp⟩, ?_⟩
      intro r hr
      exact Or.inl hr
  | cons a addrs ih =>
      intro h rs
      have hstep : (a :: addrs).foldl copy_out_step (h, rs)
          = addrs.foldl copy_out_step
              (⟨h.arrays ++ [heap_read h a]⟩, rs ++ [h.arrays.length]) := by
        rfl
      obtain ⟨⟨t, ht⟩, hmem⟩ :=
        ih ⟨h.arrays ++ [heap_read h a]⟩ (rs ++ [h.arrays.length])
      constructor
      · refine ⟨[heap_read h a] ++ t, ?_⟩
        rw [hstep, ht]
        simp
      · intro r hr
        rw [hstep] at hr
        rcases hmem r hr with h1 | h2
        · rcases List.mem_append.mp h1 with h3 | h4
          · exact Or.inl h3
          · right
            simp at h4
            omega
        · right
          simp at h2
          omega

theorem copy_out_frame (h : NumpyHeap) (addrs : List Nat) (a : Nat)
    (ha : a < h.arrays.length) (r : Nat) (newData : Mat)
    (hr : r ∈ (copy_out_arrays h addrs).2) :
    heap_read (heap_write (copy_out_arrays h addrs).1 r newData) a
      = heap_read h a := by
  obtain ⟨⟨t, ht⟩, hmem⟩ := copy_out_fold_extends addrs h []
  have hr2 : h.arrays.length ≤ r := by
    rcases hmem r hr with h1 | h2
    · simp at h1
    · exact h2
  have hane : r ≠ a := by omega
  show ((copy_out_arrays h addrs).1.arrays.set r newData).getD a []
      = h.arrays.getD a []
  rw [List.getD_eq_getElem?_getD, List.getElem?_set_ne hane]
  have harr : (copy_out_arrays h addrs).1.arrays = h.arrays ++ t := ht
  rw [harr, List.getElem?_append_left ha, ← List.getD_eq_getElem?_getD]

/-- C10 (confirmed): the weight and bias accessors return fresh copies:
overwriting any array address returned by `get_weights_for_projections` or
`get_biases_for_mechanisms` leaves every array stored in the model heap
before the call - in particular every projection weight matrix and every
mechanism bias - unchanged. -/
theorem c10_accessors_return_independent_copies (h : NumpyHeap)
    (addrs : List Nat) (a : Nat) (ha : a < h.arrays.length)
    (r : Nat) (newData : Mat) :
    (r ∈ (get_weights_for_projections h addrs).2 →
        heap_read (heap_write (get_weights_for_projections h addrs).1 r newData) a
          = heap_read h a)
    ∧ (r ∈ (get_biases_for_mechanisms h addrs).2 →
        heap_read (heap_write (get_biases_for_mechanisms h addrs).1 r newData) a
          = heap_read h a) :=
  ⟨fun hr => copy_out_frame h addrs a ha r newData hr,
   fun hr => copy_out_frame h addrs a ha r newData hr⟩

/-- C10 (witness): a heap with one weight matrix [[1]] at address 0; the
accessor returns the fresh address 1, and overwriting it leaves the
original matrix readable and unchanged. -/
theorem c10_witness :
    heap_read (heap_write (get_weights_for_projections ⟨[[[1]]]⟩ [0]).1 1 [[9]]) 0
      = heap_read ⟨[[[1]]]⟩ 0 :=
  (c10_accessors_return_independent_copies ⟨[[[1]]]⟩ [0] 0 (by decide) 1 [[9]]).1
    (by decide)

/- ----- C8 and C9 ----- -/

theorem valid_layered_disjoint (m : PyModel) (hm : valid_layered m)
    (i j : Nat) (hi : i < m.executionSets.length)
    (hj : j < m.executionSets.length) (hne : i ≠ j) (c : Nat)
    (hc : c ∈ m.executionSets.getD i []) : c ∉ m.executionSets.getD j [] := by
  rcases hm.1 i hi j hj with heq | h
  · exact absurd heq hne
  · exact h c hc

theorem forward_set_fold_not_mem (m : PyModel) (inputs : Nat → Vec) (i : Nat)
    (ss : List Nat) (st : Nat → Vec) :
    ∀ (l : List Nat) (cur : Nat → Vec) (p : Nat), p ∉ l →
      (l.foldl (fun cur c =>
          update_value cur c (pytorch_forward_node m inputs i ss st cur c)) cur) p
        = cur p := by
  intro l
  induction l with
  | nil => intro cur p _; rfl
  | cons a l ih =>
      intro cur p hp
      have hpa : p ≠ a := fun hEq => hp (hEq ▸ List.mem_cons_self a l)
      have hpl : p ∉ l := fun hmem => hp (List.mem_cons_of_mem a hmem)
      rw [List.foldl_cons, ih _ p hpl]
      simp [update_value, hpa]

theorem pytorch_forward_set_not_mem (m : PyModel) (inputs : Nat → Vec)
    (i : Nat) (st : Nat → Vec) (p : Nat)
    (hp : p ∉ m.executionSets.getD i []) :
    pytorch_forward_set m inputs i st p = st p :=
  forward_set_fold_not_mem m inputs i (m.executionSets.getD i []) st
    (m.executionSets.getD i []) st p hp

theorem foldl_afferents_congr (w : Nat) (r1 r2 : Nat → Vec) :
    ∀ (l : List (Nat × Mat)) (acc : Vec),
      (∀ pW ∈ l, r1 pW.1 = r2 pW.1) →
      l.foldl (fun acc pW => vec_add w acc (torch_matmul (r1 pW.1) pW.2)) acc
        = l.foldl (fun acc pW => vec_add w acc (torch_matmul (r2 pW.1) pW.2)) acc := by
  intro l
  induction l with
  | nil => intro acc _; rfl
  | cons q l ih =>
      intro acc h
      rw [List.foldl_cons, List.foldl_cons, h q (List.mem_cons_self q l)]
      exact ih _ (fun pW hpW => h pW (List.mem_cons_of_mem q hpW))

theorem node_weighted_sum_congr (m : PyModel) (ss : List Nat)
    (fr1 cur1 fr2 cur2 : Nat → Vec) (c : Nat)
    (h : ∀ pW ∈ m.afferents c,
        afferent_input ss fr1 cur1 pW.1 = afferent_input ss fr2 cur2 pW.1) :
    node_weighted_sum m ss fr1 cur1 c = node_weighted_sum m ss fr2 cur2 c :=
  foldl_afferents_congr (m.width c) (afferent_input ss fr1 cur1)
    (afferent_input ss fr2 cur2) (m.afferents c) (List.replicate (m.width c) 0) h

theorem pytorch_forward_node_congr (m : PyModel) (inputs : Nat → Vec)
    (i : Nat) (ss : List Nat) (fr1 cur1 fr2 cur2 : Nat → Vec) (c : Nat)
    (h : ∀ pW ∈ m.afferents c,
        afferent_input ss fr1 cur1 pW.1 = afferent_input ss fr2 cur2 pW.1) :
    pytorch_forward_node m inputs i ss fr1 cur1 c
      = pytorch_forward_node m inputs i ss fr2 cur2 c := by
  by_cases hi : i = 0
  · simp [pytorch_forward_node, hi]
  · simp only [pytorch_forward_node, if_neg hi]
    rw [node_weighted_sum_congr m ss fr1 cur1 fr2 cur2 c h]

theorem forward_set_fold_eval (m : PyModel) (inputs : Nat → Vec) (i : Nat)
    (ss : List Nat) (st : Nat → Vec) (c : Nat)
    (hpred : ∀ pW ∈ m.afferents c, pW.1 ∉ ss) :
    ∀ (l : List Nat), (∀ x ∈ l, x ∈ ss) → c ∈ l →
      ∀ (cur : Nat → Vec), (∀ p, p ∉ ss → cur p = st p) →
        (l.foldl (fun cur c2 =>
            update_value cur c2 (pytorch_forward_node m inputs i ss st cur c2)) cur) c
          = pytorch_forward_node m inputs i ss st st c := by
  intro l
  induction l with
  | nil => intro _ hc; exact absurd hc (List.not_mem_nil c)
  | cons a l ih =>
      intro hsub hc cur hinv
      rw [List.foldl_cons]
      by_cases hcl : c ∈ l
      · refine ih (fun x hx => hsub x (List.mem_cons_of_mem a hx)) hcl _ ?_
        intro p hp
        have hpa : p ≠ a := fun hEq => hp (hEq ▸ hsub a (List.mem_cons_self a l))
        simp only [update_value, if_neg hpa]
        exact hinv p hp
      · have hca : c = a := by
          rcases List.mem_cons.mp hc with hEq | hmem
          · exact hEq
          · exact absurd hmem hcl
        subst hca
        rw [forward_set_fold_not_mem m inputs i ss st l _ c hcl]
        simp only [update_value, if_pos rfl]
        refine pytorch_forward_node_congr m inputs i ss st cur st st c ?_
        intro pW hpW
        have hnot : pW.1 ∉ ss := hpred pW hpW
        simp only [afferent_input, if_neg hnot]
        exact hinv pW.1 hnot

theorem pytorch_forward_set_eval (m : PyModel) (inputs : Nat → Vec) (i : Nat)
    (st : Nat → Vec) (c : Nat)
    (hc : c ∈ m.executionSets.getD i [])
    (hpred : ∀ pW ∈ m.afferents c, pW.1 ∉ m.executionSets.getD i []) :
    pytorch_forward_set m inputs i st c
      = pytorch_forward_node m inputs i (m.executionSets.getD i []) st st c :=
  forward_set_fold_eval m inputs i (m.executionSets.getD i []) st c hpred
    (m.executionSets.getD i []) (fun _ hx => hx) hc st (fun _ _ => rfl)

theorem pytorch_forward_upto_succ (m : PyModel) (inputs st : Nat → Vec)
    (k : Nat) :
    pytorch_forward_upto m inputs st (k + 1)
      = pytorch_forward_set m inputs k (pytorch_forward_upto m inputs st k) := by
  unfold pytorch_forward_upto
  rw [List.range_succ, List.foldl_append]
  rfl

theorem execSet_getD_eq_nil (m : PyModel) (k : Nat)
    (hk : m.executionSets.length ≤ k) : m.executionSets.getD k [] = [] := by
  rw [List.getD_eq_getElem?_getD, List.getElem?_eq_none hk]
  rfl

theorem mem_execSet_lt_length (m : PyModel) (i : Nat) (c : Nat)
    (hc : c ∈ m.executionSets.getD i []) : i < m.executionSets.length := by
  by_contra hge
  push_neg at hge
  rw [execSet_getD_eq_nil m i hge] at hc
  exact absurd hc (List.not_mem_nil c)

theorem afferents_not_in_own_set (m : PyModel) (hm : valid_layered m)
    (i c : Nat) (hc : c ∈ m.executionSets.getD i []) :
    ∀ pW ∈ m.afferents c, pW.1 ∉ m.executionSets.getD i [] := by
  intro pW hpW hcontra
  have hilen : i < m.executionSets.length := mem_execSet_lt_length m i c hc
  obtain ⟨j, hj, hjmem⟩ := hm.2 i hilen c hc pW hpW
  exact valid_layered_disjoint m hm j i (by omega) hilen (by omega) pW.1 hjmem
    hcontra

theorem pytorch_forward_upto_stable (m : PyModel) (hm : valid_layered m)
    (inputs st : Nat → Vec) (i c : Nat)
    (hc : c ∈ m.executionSets.getD i []) :
    ∀ k, i < k →
      pytorch_forward_upto m inputs st k c
        = pytorch_forward_upto m inputs st (i + 1) c := by
  intro k
  induction k with
  | zero => intro h; omega
  | succ k ih =>
      intro hik
      rcases Nat.lt_succ_iff_lt_or_eq.mp hik with hlt | heq
      · rw [pytorch_forward_upto_succ]
        have hilen : i < m.executionSets.length := mem_execSet_lt_length m i c hc
        have hnotk : c ∉ m.executionSets.getD k [] := by
          by_cases hkl : k < m.executionSets.length
          · exact valid_layered_disjoint m hm i k hilen hkl (by omega) c hc
          · rw [execSet_getD_eq_nil m k (by omega)]
            exact List.not_mem_nil c
        rw [pytorch_forward_set_not_mem m inputs k _ c hnotk]
        exact ih hlt
      · rw [heq]

theorem pytorch_forward_upto_agree (m : PyModel) (hm : valid_layered m)
    (inputs : Nat → Vec) (s1 s2 : Nat → Vec) :
    ∀ k i, i < k → ∀ c ∈ m.executionSets.getD i [],
      pytorch_forward_upto m inputs s1 k c
        = pytorch_forward_upto m inputs s2 k c := by
  intro k
  induction k with
  | zero => intro i h; omega
  | succ k ih =>
      intro i hik c hc
      have hilen : i < m.executionSets.length := mem_execSet_lt_length m i c hc
      rw [pytorch_forward_upto_succ, pytorch_forward_upto_succ]
      rcases Nat.lt_succ_iff_lt_or_eq.mp hik with hlt | heq
      · have hnotk : c ∉ m.executionSets.getD k [] := by
          by_cases hkl : k < m.executionSets.length
          · exact valid_layered_disjoint m hm i k hilen hkl (by omega) c hc
          · rw [execSet_getD_eq_nil m k (by omega)]
            exact List.not_mem_nil c
        rw [pytorch_forward_set_not_mem m inputs k _ c hnotk,
            pytorch_forward_set_not_mem m inputs k _ c hnotk]
        exact ih i hlt c hc
      · subst heq
        have hpred := afferents_not_in_own_set m hm i c hc
        rw [pytorch_forward_set_eval m inputs i _ c hc hpred,
            pytorch_forward_set_eval m inputs i _ c hc hpred]
        refine pytorch_forward_node_congr m inputs i _ _ _ _ _ c ?_
        intro pW hpW
        obtain ⟨j, hj, hjmem⟩ := hm.2 i hilen c hc pW hpW
        have hnot : pW.1 ∉ m.executionSets.getD i [] := hpred pW hpW
        simp only [afferent_input, if_neg hnot]
        exact ih j hj pW.1 hjmem

theorem pytorch_forward_state_independent (m : PyModel) (hm : valid_layered m)
    (inputs s1 s2 : Nat → Vec) (i c : Nat)
    (hc : c ∈ m.executionSets.getD i []) :
    pytorch_forward m inputs s1 c = pytorch_forward m inputs s2 c :=
  pytorch_forward_upto_agree m hm inputs s1 s2 m.executionSets.length i
    (mem_execSet_lt_length m i c hc) c hc

/-- C8 (confirmed): on a validly layered graph, a second call of `forward`
with the same inputs and unchanged weights and biases recomputes exactly
the same value at every node of every execution set: the node values after
the second call equal those after the first (and the Python `forward`
method involves no compilation step at all). -/
theorem c8_forward_idempotent (m : PyModel) (hm : valid_layered m)
    (inputs st : Nat → Vec) (i c : Nat)
    (hc : c ∈ m.executionSets.getD i []) :
    pytorch_forward m inputs (pytorch_forward m inputs st) c
      = pytorch_forward m inputs st c :=
  pytorch_forward_state_independent m hm inputs
    (pytorch_forward m inputs st) st i c hc

/-- C8 (witness): on the concrete two-set model, the value of node 1 after
a second forward call equals its value after the first. -/
theorem c8_witness :
    pytorch_forward pyW pyW_inputs (pytorch_forward pyW pyW_inputs pyW_state) 1
      = pytorch_forward pyW pyW_inputs pyW_state 1 :=
  c8_forward_idempotent pyW (by unfold valid_layered; decide) pyW_inputs
    pyW_state 1 1 (by decide)

/-- C9 (confirmed): after `forward` returns, the stored value of every
node of every execution set - not only of the final set - satisfies that
propagation equation of that node with respect to the final node values:
it is the node activation applied to the weighted sum of the current
predecessor values (plus bias where present), and for origin nodes the
activation applied to the current input; i.e. every stored value reflects
exactly one full propagation of the current input. -/
theorem c9_every_node_value_propagated (m : PyModel) (hm : valid_layered m)
    (inputs st : Nat → Vec) (i c : Nat)
    (hc : c ∈ m.executionSets.getD i []) :
    pytorch_forward m inputs st c
      = pytorch_forward_node m inputs i (m.executionSets.getD i [])
          (pytorch_forward m inputs st) (pytorch_forward m inputs st) c := by
  have hilen : i < m.executionSets.length := mem_execSet_lt_length m i c hc
  have hpred := afferents_not_in_own_set m hm i c hc
  have hstab : pytorch_forward m inputs st c
      = pytorch_forward_upto m inputs st (i + 1) c :=
    pytorch_forward_upto_stable m hm inputs st i c hc
      m.executionSets.length hilen
  have hstep : pytorch_forward_upto m inputs st (i + 1) c
      = pytorch_forward_node m inputs i (m.executionSets.getD i [])
          (pytorch_forward_upto m inputs st i)
          (pytorch_forward_upto m inputs st i) c := by
    rw [pytorch_forward_upto_succ]
    exact pytorch_forward_set_eval m inputs i _ c hc hpred
  rw [hstab, hstep]
  refine pytorch_forward_node_congr m inputs i _ _ _ _ _ c ?_
  intro pW hpW
  obtain ⟨j, hj, hjmem⟩ := hm.2 i hilen c hc pW hpW
  have hnot : pW.1 ∉ m.executionSets.getD i [] := hpred pW hpW
  simp only [afferent_input, if_neg hnot]
  have h1 : pytorch_forward_upto m inputs st i pW.1
      = pytorch_forward_upto m inputs st (j + 1) pW.1 :=
    pytorch_forward_upto_stable m hm inputs st j pW.1 hjmem i hj
  have h2 : pytorch_forward m inputs st pW.1
      = pytorch_forward_upto m inputs st (j + 1) pW.1 :=
    pytorch_forward_upto_stable m hm inputs st j pW.1 hjmem
      m.executionSets.length (mem_execSet_lt_length m j pW.1 hjmem)
  rw [h1, h2]

/-- C9 (witness): on the concrete two-set model, the stored value of the
non-final node 1 after `forward` equals its propagation equation evaluated
at the final values. -/
theorem c9_witness :
    pytorch_forward pyW pyW_inputs pyW_state 1
      = pytorch_forward_node pyW pyW_inputs 1 (pyW.executionSets.getD 1 [])
          (pytorch_forward pyW pyW_inputs pyW_state)
          (pytorch_forward pyW pyW_inputs pyW_state) 1 :=
  c9_every_node_value_propagated pyW (by unfold valid_layered; decide)
    pyW_inputs pyW_state 1 1 (by decide)

/-- C3 (witness): a node with one weight tensor (address 100, data [[1]])
and a bias tensor (address 200, data [1]) in the default configuration. -/
theorem c3_witness :
    ((get_param_initializer_node false [⟨100, [[1]]⟩] (some ⟨200, [1]⟩)).1.map
          paramTyOf
        = (get_param_struct_type_node false [⟨100, [[1]]⟩] (some ⟨200, [1]⟩)).1
      ∧ (get_param_initializer_node false [⟨100, [[1]]⟩] (some ⟨200, [1]⟩)).2.map
          paramTyOf
        = (get_param_struct_type_node false [⟨100, [[1]]⟩] (some ⟨200, [1]⟩)).2)
    ∧ (get_param_initializer_node false [⟨100, [[1]]⟩]
          (some ⟨200, [1]⟩)).1.getD 0 (ParamVal.addrOf 0)
        = (if false then
            ParamVal.matVal (([⟨100, [[1]]⟩] : List HostTensorM).getD 0 default).data
          else
            ParamVal.addrOf (([⟨100, [[1]]⟩] : List HostTensorM).getD 0 default).addr) :=
  c3_default_is_reference_semantics false [⟨100, [[1]]⟩] (some ⟨200, [1]⟩) 0
    (by decide)
